import Mathlib

/-!
Shallow embedding of the volatility-surface repository's pricing-and-inversion
core (src/calculators/black_scholes.py, src/calculators/implied_volatility.py,
src/config/config.py) over the reals, together with proofs of the
specification's testable properties.

Floating-point arithmetic is modelled by exact real arithmetic; the external
`scipy.stats.norm` distribution functions are embedded as the standard normal
density and its cumulative integral, and `scipy.optimize.brentq` is embedded
as an idealised bracketed root finder (see `brentq` below).
-/

open MeasureTheory intervalIntegral Real Set

noncomputable section

namespace VolSurface

open scoped Classical

/-- Standard normal probability density, the embedding of `scipy.stats.norm.pdf`. -/
def normPdf (x : ℝ) : ℝ := (Real.sqrt (2 * Real.pi))⁻¹ * Real.exp (-(x ^ 2) / 2)

/-- Standard normal cumulative distribution, the embedding of `scipy.stats.norm.cdf`. -/
def normCdf (x : ℝ) : ℝ := ∫ t in Set.Iic x, normPdf t

/-- The quantity `d1` shared by all pricing formulas in
src/calculators/black_scholes.py and src/calculators/implied_volatility.py:
`(log(S/K) + (r - q + sigma^2/2) T) / (sigma sqrt T)`. -/
def d1 (S K T r sigma q : ℝ) : ℝ :=
  (Real.log (S / K) + (r - q + sigma ^ 2 / 2) * T) / (sigma * Real.sqrt T)

/-- The quantity `d2 = d1 - sigma sqrt T`. -/
def d2 (S K T r sigma q : ℝ) : ℝ := d1 S K T r sigma q - sigma * Real.sqrt T

/-- Container for option pricing parameters (`OptionData` in black_scholes.py). -/
structure OptionData where
  S : ℝ
  K : ℝ
  T : ℝ
  r : ℝ
  sigma : ℝ
  q : ℝ
  option_type : String

namespace BlackScholes

/-- The call branch of `BlackScholes.price`:
`S e^(-qT) Phi(d1) - K e^(-rT) Phi(d2)`. -/
def callFormula (S K T r sigma q : ℝ) : ℝ :=
  S * Real.exp (-q * T) * normCdf (d1 S K T r sigma q) -
    K * Real.exp (-r * T) * normCdf (d2 S K T r sigma q)

/-- The put branch of `BlackScholes.price`:
`K e^(-rT) Phi(-d2) - S e^(-qT) Phi(-d1)`. -/
def putFormula (S K T r sigma q : ℝ) : ℝ :=
  K * Real.exp (-r * T) * normCdf (-(d2 S K T r sigma q)) -
    S * Real.exp (-q * T) * normCdf (-(d1 S K T r sigma q))

/-- `BlackScholes.price`: dispatches on `option_type` and raises `ValueError`
(embedded as `Except.error`) when the kind is neither `call` nor `put`.
Note the source applies no `T <= 0` guard here. -/
def price (od : OptionData) : Except String ℝ :=
  if od.option_type = "call" then
    Except.ok (callFormula od.S od.K od.T od.r od.sigma od.q)
  else if od.option_type = "put" then
    Except.ok (putFormula od.S od.K od.T od.r od.sigma od.q)
  else
    Except.error "Invalid option_type. Must be call or put"

/-- `BlackScholes.delta`: the `else` branch is taken for every non-`call` kind. -/
def delta (od : OptionData) : ℝ :=
  if od.option_type = "call" then
    Real.exp (-od.q * od.T) * normCdf (d1 od.S od.K od.T od.r od.sigma od.q)
  else
    Real.exp (-od.q * od.T) * (normCdf (d1 od.S od.K od.T od.r od.sigma od.q) - 1)

/-- `BlackScholes.gamma`: does not consult `option_type`. -/
def gamma (od : OptionData) : ℝ :=
  Real.exp (-od.q * od.T) * normPdf (d1 od.S od.K od.T od.r od.sigma od.q) /
    (od.S * od.sigma * Real.sqrt od.T)

/-- `BlackScholes.vega`: does not consult `option_type`. -/
def vega (od : OptionData) : ℝ :=
  od.S * Real.exp (-od.q * od.T) * normPdf (d1 od.S od.K od.T od.r od.sigma od.q) *
    Real.sqrt od.T

/-- `BlackScholes.theta`: the `else` branch is taken for every non-`call` kind;
the annual value is divided by 365. -/
def theta (od : OptionData) : ℝ :=
  (if od.option_type = "call" then
    -od.S * Real.exp (-od.q * od.T) * normPdf (d1 od.S od.K od.T od.r od.sigma od.q) *
        od.sigma / (2 * Real.sqrt od.T) -
      od.r * od.K * Real.exp (-od.r * od.T) * normCdf (d2 od.S od.K od.T od.r od.sigma od.q) +
      od.q * od.S * Real.exp (-od.q * od.T) * normCdf (d1 od.S od.K od.T od.r od.sigma od.q)
  else
    -od.S * Real.exp (-od.q * od.T) * normPdf (d1 od.S od.K od.T od.r od.sigma od.q) *
        od.sigma / (2 * Real.sqrt od.T) +
      od.r * od.K * Real.exp (-od.r * od.T) * normCdf (-(d2 od.S od.K od.T od.r od.sigma od.q)) -
      od.q * od.S * Real.exp (-od.q * od.T) * normCdf (-(d1 od.S od.K od.T od.r od.sigma od.q))) /
    365

end BlackScholes

/-! Constants of `IVCalculationConfig` in src/config/config.py. -/

namespace IVCalculationConfig

def IV_MIN_BOUND : ℝ := 1e-6

def IV_MAX_BOUND : ℝ := 5.0

def IV_CONVERGENCE_TOLERANCE : ℝ := 1e-4

def INTRINSIC_VALUE_TOLERANCE : ℝ := 0.99

def MIN_SPOT_PRICE : ℝ := 0.01

def MIN_STRIKE_PRICE : ℝ := 0.01

def MIN_TIME_TO_EXPIRY : ℝ := 1e-6

def MIN_MARKET_PRICE : ℝ := 0.01

end IVCalculationConfig

/-! Constants of `ModelConfig` in src/config/config.py. -/

namespace ModelConfig

def MIN_RISK_FREE_RATE : ℝ := 0.0

def MAX_RISK_FREE_RATE : ℝ := 1.0

def MIN_DIVIDEND_YIELD : ℝ := 0.0

def MAX_DIVIDEND_YIELD : ℝ := 1.0

end ModelConfig

/-- `bs_call_price` in src/calculators/implied_volatility.py: intrinsic value
when `T <= 0`, otherwise the Black-Scholes call formula. -/
def bs_call_price (S K T r sigma q : ℝ) : ℝ :=
  if T ≤ 0 then max (S - K) 0
  else S * Real.exp (-q * T) * normCdf (d1 S K T r sigma q) -
    K * Real.exp (-r * T) * normCdf (d2 S K T r sigma q)

/-- `bs_put_price` in src/calculators/implied_volatility.py: intrinsic value
when `T <= 0`, otherwise the Black-Scholes put formula. -/
def bs_put_price (S K T r sigma q : ℝ) : ℝ :=
  if T ≤ 0 then max (K - S) 0
  else K * Real.exp (-r * T) * normCdf (-(d2 S K T r sigma q)) -
    S * Real.exp (-q * T) * normCdf (-(d1 S K T r sigma q))

/-- The mutable statistics state of an `IVCalculator` instance. -/
structure IVCalculator where
  calculation_count : ℕ
  failed_count : ℕ
deriving DecidableEq, Repr

/-- `IVCalculator.__init__`: both counters start at zero. -/
def IVCalculator.new : IVCalculator := ⟨0, 0⟩

/-- Embedding of Python's `str.lower()` for the ASCII option-kind strings. -/
def strLower (s : String) : String := ⟨s.data.map Char.toLower⟩

/-- `IVCalculator._validate_inputs`: returns an error message on the first
violated threshold, `none` when every input is acceptable. -/
def validate_inputs (S K T r market_price q : ℝ) (option_type : String) :
    Option String :=
  if S < IVCalculationConfig.MIN_SPOT_PRICE then some "Spot price below minimum"
  else if K < IVCalculationConfig.MIN_STRIKE_PRICE then some "Strike price below minimum"
  else if T < IVCalculationConfig.MIN_TIME_TO_EXPIRY then some "Time to expiration below minimum"
  else if market_price < IVCalculationConfig.MIN_MARKET_PRICE then some "Market price below minimum"
  else if r < ModelConfig.MIN_RISK_FREE_RATE ∨ ModelConfig.MAX_RISK_FREE_RATE < r then
    some "Risk-free rate out of range"
  else if q < ModelConfig.MIN_DIVIDEND_YIELD ∨ ModelConfig.MAX_DIVIDEND_YIELD < q then
    some "Dividend yield out of range"
  else if ¬(strLower option_type = "call" ∨ strLower option_type = "put") then
    some "Option type must be call or put"
  else none

/-- The two exception kinds `scipy.optimize.brentq` raises and
`IVCalculator.calculate_iv` catches: `ValueError` for a non-bracketing
interval and `RuntimeError` for failure to converge. -/
inductive BrentqError where
  | valueError
  | runtimeError
deriving DecidableEq, Repr

/-- Idealised real-arithmetic model of `scipy.optimize.brentq` on `[a, b]`:
returns a root of `f` in `[a, b]` when one exists (for the solver's continuous
strictly monotone objectives this is exactly the bracketing condition), and the
bracketing `ValueError` otherwise. The `RuntimeError` outcome (iteration budget
exhausted) is never produced by the idealised model, but the solver must still
handle it, which `calculate_iv_with` makes explicit. -/
def brentq (f : ℝ → ℝ) (a b : ℝ) : Except BrentqError ℝ :=
  if h : ∃ x, x ∈ Set.Icc a b ∧ f x = 0 then Except.ok h.choose
  else Except.error BrentqError.valueError

/-- The intrinsic value computed by `calculate_iv` (after `option_type` has
been lowercased): `max(S-K, 0)` for a call and `max(K-S, 0)` otherwise. -/
def intrinsic_value (S K : ℝ) (option_type : String) : ℝ :=
  if option_type = "call" then max (S - K) 0 else max (K - S) 0

/-- The objective `model_price - market_price` closed over by `calculate_iv`
(after `option_type` has been lowercased). -/
def objective_function (S K T r market_price q : ℝ) (option_type : String)
    (sigma : ℝ) : ℝ :=
  if option_type = "call" then bs_call_price S K T r sigma q - market_price
  else bs_put_price S K T r sigma q - market_price

/-- `IVCalculator.calculate_iv` with the root-search outcome passed explicitly,
so that the handling of every possible root-search exception is a statement
about all values of `searchResult`. Returns the updated statistics state and
the optional implied volatility. -/
def calculate_iv_with (c : IVCalculator) (S K T r market_price q : ℝ)
    (option_type : String) (searchResult : Except BrentqError ℝ) :
    IVCalculator × Option ℝ :=
  let c1 : IVCalculator := ⟨c.calculation_count + 1, c.failed_count⟩
  if (validate_inputs S K T r market_price q option_type).isSome then
    (⟨c1.calculation_count, c1.failed_count + 1⟩, none)
  else
    if market_price < intrinsic_value S K (strLower option_type) *
        IVCalculationConfig.INTRINSIC_VALUE_TOLERANCE then
      (⟨c1.calculation_count, c1.failed_count + 1⟩, none)
    else
      match searchResult with
      | Except.ok iv => (c1, some iv)
      | Except.error _ => (⟨c1.calculation_count, c1.failed_count + 1⟩, none)

/-- `IVCalculator.calculate_iv`: validation, arbitrage check, then Brent root
search over `[IV_MIN_BOUND, IV_MAX_BOUND]`. -/
def calculate_iv (c : IVCalculator) (S K T r market_price q : ℝ)
    (option_type : String) : IVCalculator × Option ℝ :=
  calculate_iv_with c S K T r market_price q option_type
    (brentq (objective_function S K T r market_price q (strLower option_type))
      IVCalculationConfig.IV_MIN_BOUND IVCalculationConfig.IV_MAX_BOUND)

/-- The snapshot returned by `IVCalculator.get_statistics`. -/
structure IVStatistics where
  total : ℕ
  successful : ℤ
  failed : ℕ
  success_rate : ℝ

/-- `IVCalculator.get_statistics`: a pure snapshot of the two counters. -/
def get_statistics (c : IVCalculator) : IVStatistics :=
  { total := c.calculation_count
    successful := (c.calculation_count : ℤ) - (c.failed_count : ℤ)
    failed := c.failed_count
    success_rate :=
      if 0 < c.calculation_count then
        ((c.calculation_count : ℝ) - (c.failed_count : ℝ)) / (c.calculation_count : ℝ) * 100
      else 0 }

/-- `IVCalculator.reset_statistics`: both counters return to zero. -/
def reset_statistics (_c : IVCalculator) : IVCalculator := ⟨0, 0⟩

/-- One argument tuple for a `calculate_iv` call, used to state properties of
arbitrary call sequences. -/
structure CallArgs where
  S : ℝ
  K : ℝ
  T : ℝ
  r : ℝ
  market_price : ℝ
  q : ℝ
  option_type : String

/-- The state transition performed by one `calculate_iv` call. -/
def stepCalc (c : IVCalculator) (a : CallArgs) : IVCalculator :=
  (calculate_iv c a.S a.K a.T a.r a.market_price a.q a.option_type).1

/-- The state after a sequence of `calculate_iv` calls. -/
def runCalls (c : IVCalculator) (l : List CallArgs) : IVCalculator :=
  l.foldl stepCalc c

/-! From here on: the theorem development. -/

theorem normPdf_pos (x : ℝ) : 0 < normPdf x := by
  have h2π : (0 : ℝ) < 2 * Real.pi := by positivity
  exact mul_pos (inv_pos.mpr (Real.sqrt_pos.mpr h2π)) (Real.exp_pos _)

theorem continuous_normPdf : Continuous normPdf := by
  unfold normPdf
  fun_prop

theorem integrable_normPdf : Integrable normPdf := by
  have h : Integrable (fun x : ℝ => Real.exp (-(1/2 : ℝ) * x ^ 2)) :=
    integrable_exp_neg_mul_sq (by norm_num)
  have h2 := h.const_mul (Real.sqrt (2 * Real.pi))⁻¹
  refine h2.congr ?_
  filter_upwards with x
  unfold normPdf
  ring_nf

theorem integral_normPdf : (∫ x, normPdf x) = 1 := by
  have hg : (∫ x : ℝ, Real.exp (-(1/2 : ℝ) * x ^ 2)) = Real.sqrt (Real.pi / (1/2)) :=
    integral_gaussian (1/2)
  have hfun : ∀ x : ℝ, normPdf x = (Real.sqrt (2 * Real.pi))⁻¹ * Real.exp (-(1/2 : ℝ) * x ^ 2) := by
    intro x
    unfold normPdf
    ring_nf
  calc (∫ x, normPdf x)
      = ∫ x : ℝ, (Real.sqrt (2 * Real.pi))⁻¹ * Real.exp (-(1/2 : ℝ) * x ^ 2) := by
        exact integral_congr_ae (Filter.Eventually.of_forall hfun)
    _ = (Real.sqrt (2 * Real.pi))⁻¹ * ∫ x : ℝ, Real.exp (-(1/2 : ℝ) * x ^ 2) := by
        rw [MeasureTheory.integral_mul_left]
    _ = 1 := by
        rw [hg]
        have : Real.pi / (1/2 : ℝ) = 2 * Real.pi := by ring
        rw [this]
        have hπ : (0 : ℝ) < 2 * Real.pi := by positivity
        field_simp

theorem normCdf_add_neg (x : ℝ) : normCdf x + normCdf (-x) = 1 := by
  have hby : normCdf (-x) = ∫ t in Set.Ioi x, normPdf t := by
    have := integral_comp_neg_Ioi x normPdf
    have heq : (∫ t in Set.Ioi x, normPdf (-t)) = ∫ t in Set.Ioi x, normPdf t := by
      refine setIntegral_congr_fun measurableSet_Ioi (fun t _ => ?_)
      unfold normPdf
      ring_nf
    rw [heq] at this
    unfold normCdf
    rw [← this]
  rw [hby]
  unfold normCdf
  rw [integral_Iic_add_Ioi (integrable_normPdf.integrableOn)
    (integrable_normPdf.integrableOn)]
  exact integral_normPdf

theorem normCdf_nonneg (x : ℝ) : 0 ≤ normCdf x :=
  setIntegral_nonneg measurableSet_Iic (fun t _ => (normPdf_pos t).le)

theorem normCdf_le_one (x : ℝ) : normCdf x ≤ 1 := by
  have h := normCdf_add_neg x
  have h2 := normCdf_nonneg (-x)
  linarith

theorem normCdf_neg (x : ℝ) : normCdf (-x) = 1 - normCdf x := by
  have h := normCdf_add_neg x
  linarith

theorem normCdf_zero : normCdf 0 = 1 / 2 := by
  have h := normCdf_add_neg 0
  rw [neg_zero] at h
  linarith

theorem normCdf_sub_normCdf (a b : ℝ) :
    normCdf b - normCdf a = ∫ t in a..b, normPdf t :=
  integral_Iic_sub_Iic integrable_normPdf.integrableOn
    integrable_normPdf.integrableOn

theorem normCdf_mono {a b : ℝ} (hab : a ≤ b) : normCdf a ≤ normCdf b := by
  have h := normCdf_sub_normCdf a b
  have hpos : 0 ≤ ∫ t in a..b, normPdf t :=
    intervalIntegral.integral_nonneg hab (fun t _ => (normPdf_pos t).le)
  linarith

theorem normCdf_strict_lt {a b : ℝ} (hab : a < b) : normCdf a < normCdf b := by
  have h := normCdf_sub_normCdf a b
  have hpos : 0 < ∫ t in a..b, normPdf t :=
    intervalIntegral_pos_of_pos (integrable_normPdf.intervalIntegrable) normPdf_pos hab
  linarith

theorem normCdf_pos (x : ℝ) : 0 < normCdf x := by
  have h := normCdf_strict_lt (show x - 1 < x by linarith)
  have h2 := normCdf_nonneg (x - 1)
  linarith

theorem normCdf_lt_one (x : ℝ) : normCdf x < 1 := by
  have h := normCdf_add_neg x
  have h2 := normCdf_pos (-x)
  linarith

theorem hasDerivAt_normCdf (x : ℝ) : HasDerivAt normCdf (normPdf x) x := by
  have hrepr : ∀ y : ℝ, normCdf y = normCdf 0 + ∫ t in (0:ℝ)..y, normPdf t := by
    intro y
    have := normCdf_sub_normCdf 0 y
    linarith
  have hF : HasDerivAt (fun y : ℝ => ∫ t in (0:ℝ)..y, normPdf t) (normPdf x) x := by
    refine intervalIntegral.integral_hasDerivAt_right
      (integrable_normPdf.intervalIntegrable) ?_ continuous_normPdf.continuousAt
    exact continuous_normPdf.stronglyMeasurableAtFilter _ _
  have hF2 : HasDerivAt (fun y : ℝ => normCdf 0 + ∫ t in (0:ℝ)..y, normPdf t) (normPdf x) x :=
    hF.const_add _
  have : normCdf = fun y : ℝ => normCdf 0 + ∫ t in (0:ℝ)..y, normPdf t := funext hrepr
  rw [this]
  exact hF2

theorem d1_mul_denom {S K T r sigma q : ℝ} (hT : 0 < T) (hs : sigma ≠ 0) :
    d1 S K T r sigma q * (sigma * Real.sqrt T) =
      Real.log (S / K) + (r - q + sigma ^ 2 / 2) * T := by
  have hden : sigma * Real.sqrt T ≠ 0 :=
    mul_ne_zero hs (ne_of_gt (Real.sqrt_pos.mpr hT))
  exact div_mul_cancel₀ _ hden

/-- The exponent identity behind the Black-Scholes density relation:
`d1^2 - d2^2 = 2 (log(S/K) + (r - q) T)`. -/
theorem d1_sq_sub_d2_sq {S K T r sigma q : ℝ} (hT : 0 < T) (hs : sigma ≠ 0) :
    d1 S K T r sigma q ^ 2 - d2 S K T r sigma q ^ 2 =
      2 * (Real.log (S / K) + (r - q) * T) := by
  have h1 := @d1_mul_denom S K T r sigma q hT hs
  have h2 : (sigma * Real.sqrt T) ^ 2 = sigma ^ 2 * T := by
    rw [mul_pow, Real.sq_sqrt hT.le]
  unfold d2
  linear_combination 2 * h1 - h2

/-- The density relation `K e^(-rT) phi(d2) = S e^(-qT) phi(d1)` that makes
vega the same for both branches of the price formula. -/
theorem density_relation {S K T r sigma q : ℝ} (hS : 0 < S) (hK : 0 < K)
    (hT : 0 < T) (hs : sigma ≠ 0) :
    K * Real.exp (-r * T) * normPdf (d2 S K T r sigma q) =
      S * Real.exp (-q * T) * normPdf (d1 S K T r sigma q) := by
  have hsq := @d1_sq_sub_d2_sq S K T r sigma q hT hs
  have hexp : Real.exp (-(d2 S K T r sigma q ^ 2) / 2) =
      Real.exp (-(d1 S K T r sigma q ^ 2) / 2) * (S / K) * Real.exp ((r - q) * T) := by
    rw [← Real.exp_log (div_pos hS hK), ← Real.exp_add, ← Real.exp_add]
    congr 1
    linarith
  unfold normPdf
  rw [hexp]
  have hKne : K ≠ 0 := ne_of_gt hK
  have hcol : Real.exp (-r * T) * Real.exp ((r - q) * T) = Real.exp (-q * T) := by
    rw [← Real.exp_add]
    congr 1
    ring
  rw [← hcol]
  field_simp
  ring

/-- Pointwise put-call parity of the two price branches, a consequence of
`Phi(-x) = 1 - Phi(x)`; it holds for all real parameters. -/
theorem putFormula_eq_callFormula (S K T r sigma q : ℝ) :
    BlackScholes.putFormula S K T r sigma q =
      BlackScholes.callFormula S K T r sigma q - S * Real.exp (-q * T) +
        K * Real.exp (-r * T) := by
  unfold BlackScholes.putFormula BlackScholes.callFormula
  rw [normCdf_neg, normCdf_neg]
  ring

/-- The call-price branch is differentiable in sigma with derivative equal to
the vega expression `S e^(-qT) phi(d1) sqrt T`. -/
theorem hasDerivAt_callFormula (S K T r q : ℝ) {sigma : ℝ} (hS : 0 < S) (hK : 0 < K)
    (hT : 0 < T) (hs : 0 < sigma) :
    HasDerivAt (fun v => BlackScholes.callFormula S K T r v q)
      (S * Real.exp (-q * T) * normPdf (d1 S K T r sigma q) * Real.sqrt T) sigma := by
  have hnum : HasDerivAt (fun v : ℝ => Real.log (S / K) + (r - q + v ^ 2 / 2) * T)
      (sigma * T) sigma := by
    have h1 : HasDerivAt (fun v : ℝ => v ^ 2) (2 * sigma) sigma := by
      simpa using hasDerivAt_pow 2 sigma
    have h2 : HasDerivAt (fun v : ℝ => (r - q + v ^ 2 / 2) * T) (2 * sigma / 2 * T) sigma :=
      ((h1.div_const 2).const_add (r - q)).mul_const T
    have h3 := h2.const_add (Real.log (S / K))
    convert h3 using 1
    ring
  have hden : HasDerivAt (fun v : ℝ => v * Real.sqrt T) (Real.sqrt T) sigma := by
    simpa using (hasDerivAt_id sigma).mul_const (Real.sqrt T)
  have hdenne : sigma * Real.sqrt T ≠ 0 :=
    mul_ne_zero (ne_of_gt hs) (ne_of_gt (Real.sqrt_pos.mpr hT))
  obtain ⟨c, hd1⟩ : ∃ c, HasDerivAt (fun v : ℝ => d1 S K T r v q) c sigma := by
    have h := hnum.div hden hdenne
    exact ⟨_, by simpa [d1] using h⟩
  have hd2 : HasDerivAt (fun v : ℝ => d2 S K T r v q) (c - Real.sqrt T) sigma := by
    have h := hd1.sub hden
    simpa [d2] using h
  have hc1 : HasDerivAt (fun v : ℝ => normCdf (d1 S K T r v q))
      (normPdf (d1 S K T r sigma q) * c) sigma := by
    have h := (hasDerivAt_normCdf (d1 S K T r sigma q)).comp sigma hd1
    simpa [Function.comp] using h
  have hc2 : HasDerivAt (fun v : ℝ => normCdf (d2 S K T r v q))
      (normPdf (d2 S K T r sigma q) * (c - Real.sqrt T)) sigma := by
    have h := (hasDerivAt_normCdf (d2 S K T r sigma q)).comp sigma hd2
    simpa [Function.comp] using h
  have hfull : HasDerivAt
      (fun v : ℝ => S * Real.exp (-q * T) * normCdf (d1 S K T r v q) -
        K * Real.exp (-r * T) * normCdf (d2 S K T r v q))
      (S * Real.exp (-q * T) * (normPdf (d1 S K T r sigma q) * c) -
        K * Real.exp (-r * T) * (normPdf (d2 S K T r sigma q) * (c - Real.sqrt T))) sigma :=
    (hc1.const_mul _).sub (hc2.const_mul _)
  have hdr := @density_relation S K T r sigma q hS hK hT (ne_of_gt hs)
  have hval : S * Real.exp (-q * T) * (normPdf (d1 S K T r sigma q) * c) -
      K * Real.exp (-r * T) * (normPdf (d2 S K T r sigma q) * (c - Real.sqrt T)) =
      S * Real.exp (-q * T) * normPdf (d1 S K T r sigma q) * Real.sqrt T := by
    linear_combination (Real.sqrt T - c) * hdr
  rw [hval] at hfull
  exact hfull

/-- The call-price branch is strictly increasing in sigma on `sigma > 0`. -/
theorem callFormula_strictMonoOn (S K T r q : ℝ) (hS : 0 < S) (hK : 0 < K) (hT : 0 < T) :
    StrictMonoOn (fun v => BlackScholes.callFormula S K T r v q) (Set.Ioi 0) := by
  refine strictMonoOn_of_deriv_pos (convex_Ioi 0) ?_ ?_
  · intro x hx
    exact (hasDerivAt_callFormula S K T r q hS hK hT
      (mem_Ioi.mp hx)).differentiableAt.continuousAt.continuousWithinAt
  · intro x hx
    rw [interior_Ioi] at hx
    rw [(hasDerivAt_callFormula S K T r q hS hK hT (mem_Ioi.mp hx)).deriv]
    exact mul_pos (mul_pos (mul_pos hS (Real.exp_pos _)) (normPdf_pos _))
      (Real.sqrt_pos.mpr hT)

/-- The put-price branch is strictly increasing in sigma on `sigma > 0`. -/
theorem putFormula_strictMonoOn (S K T r q : ℝ) (hS : 0 < S) (hK : 0 < K) (hT : 0 < T) :
    StrictMonoOn (fun v => BlackScholes.putFormula S K T r v q) (Set.Ioi 0) := by
  intro a ha b hb hab
  have h := callFormula_strictMonoOn S K T r q hS hK hT ha hb hab
  simp only [putFormula_eq_callFormula]
  simpa using h

theorem bs_call_price_of_pos {S K T r sigma q : ℝ} (hT : 0 < T) :
    bs_call_price S K T r sigma q = BlackScholes.callFormula S K T r sigma q := by
  unfold bs_call_price BlackScholes.callFormula
  rw [if_neg (not_le.mpr hT)]

theorem bs_put_price_of_pos {S K T r sigma q : ℝ} (hT : 0 < T) :
    bs_put_price S K T r sigma q = BlackScholes.putFormula S K T r sigma q := by
  unfold bs_put_price BlackScholes.putFormula
  rw [if_neg (not_le.mpr hT)]

/-- Characterisation of the validator: it accepts exactly when every
threshold and range check passes and the lowercased kind is call or put. -/
theorem validate_inputs_eq_none_iff (S K T r market_price q : ℝ) (option_type : String) :
    validate_inputs S K T r market_price q option_type = none ↔
      (¬(S < IVCalculationConfig.MIN_SPOT_PRICE) ∧
       ¬(K < IVCalculationConfig.MIN_STRIKE_PRICE) ∧
       ¬(T < IVCalculationConfig.MIN_TIME_TO_EXPIRY) ∧
       ¬(market_price < IVCalculationConfig.MIN_MARKET_PRICE) ∧
       ¬(r < ModelConfig.MIN_RISK_FREE_RATE ∨ ModelConfig.MAX_RISK_FREE_RATE < r) ∧
       ¬(q < ModelConfig.MIN_DIVIDEND_YIELD ∨ ModelConfig.MAX_DIVIDEND_YIELD < q) ∧
       (strLower option_type = "call" ∨ strLower option_type = "put")) := by
  unfold validate_inputs
  split_ifs with h1 h2 h3 h4 h5 h6 h7 <;> simp_all

/-- When validation rejects, `calculate_iv` returns the failure pair without
consulting the arbitrage check or the root search. -/
theorem calculate_iv_of_validation_failure (c : IVCalculator)
    {S K T r market_price q : ℝ} {ot : String}
    (h : validate_inputs S K T r market_price q ot ≠ none) :
    calculate_iv c S K T r market_price q ot =
      (⟨c.calculation_count + 1, c.failed_count + 1⟩, none) := by
  unfold calculate_iv calculate_iv_with
  rw [if_pos (Option.ne_none_iff_isSome.mp h)]

/-- When validation passes and the market price is below the tolerance-scaled
intrinsic value, `calculate_iv` returns the arbitrage failure pair without
consulting the root search. -/
theorem calculate_iv_of_arbitrage (c : IVCalculator) {S K T r market_price q : ℝ}
    {ot : String}
    (hval : validate_inputs S K T r market_price q ot = none)
    (harb : market_price < intrinsic_value S K (strLower ot) *
      IVCalculationConfig.INTRINSIC_VALUE_TOLERANCE) :
    calculate_iv c S K T r market_price q ot =
      (⟨c.calculation_count + 1, c.failed_count + 1⟩, none) := by
  unfold calculate_iv calculate_iv_with
  rw [hval]
  simp only [Option.isSome_none, Bool.false_eq_true, if_false]
  rw [if_pos harb]

/-- When validation and the arbitrage check pass and the objective has a root
in the search bracket, `calculate_iv` succeeds, leaves the failure counter
unchanged, and returns a root of the objective inside the bracket. -/
theorem calculate_iv_of_root (c : IVCalculator) {S K T r market_price q : ℝ}
    {ot : String}
    (hval : validate_inputs S K T r market_price q ot = none)
    (harb : ¬(market_price < intrinsic_value S K (strLower ot) *
      IVCalculationConfig.INTRINSIC_VALUE_TOLERANCE))
    (hroot : ∃ x, x ∈ Set.Icc IVCalculationConfig.IV_MIN_BOUND
        IVCalculationConfig.IV_MAX_BOUND ∧
      objective_function S K T r market_price q (strLower ot) x = 0) :
    ∃ iv : ℝ,
      calculate_iv c S K T r market_price q ot =
        (⟨c.calculation_count + 1, c.failed_count⟩, some iv) ∧
      iv ∈ Set.Icc IVCalculationConfig.IV_MIN_BOUND IVCalculationConfig.IV_MAX_BOUND ∧
      objective_function S K T r market_price q (strLower ot) iv = 0 := by
  refine ⟨hroot.choose, ?_, hroot.choose_spec.1, hroot.choose_spec.2⟩
  unfold calculate_iv calculate_iv_with brentq
  rw [hval]
  simp only [Option.isSome_none, Bool.false_eq_true, if_false]
  rw [if_neg harb, dif_pos hroot]

/-- Whatever the root-search outcome, one solver call adds exactly one to the
total counter and zero or one to the failure counter. -/
theorem calculate_iv_with_counts (c : IVCalculator) (S K T r market_price q : ℝ)
    (ot : String) (res : Except BrentqError ℝ) :
    (calculate_iv_with c S K T r market_price q ot res).1.calculation_count =
        c.calculation_count + 1 ∧
      ((calculate_iv_with c S K T r market_price q ot res).1.failed_count = c.failed_count ∨
        (calculate_iv_with c S K T r market_price q ot res).1.failed_count =
          c.failed_count + 1) := by
  cases res with
  | ok iv =>
    unfold calculate_iv_with
    split_ifs <;> simp
  | error e =>
    unfold calculate_iv_with
    split_ifs <;> simp

/-- Each `calculate_iv` call adds exactly one to the total counter and zero or
one to the failure counter. -/
theorem stepCalc_counts (c : IVCalculator) (a : CallArgs) :
    (stepCalc c a).calculation_count = c.calculation_count + 1 ∧
      ((stepCalc c a).failed_count = c.failed_count ∨
        (stepCalc c a).failed_count = c.failed_count + 1) := by
  unfold stepCalc calculate_iv
  exact calculate_iv_with_counts c a.S a.K a.T a.r a.market_price a.q a.option_type _

/-- Counter bookkeeping over an arbitrary sequence of calls. -/
theorem runCalls_counts (l : List CallArgs) : ∀ c : IVCalculator,
    (runCalls c l).calculation_count = c.calculation_count + l.length ∧
      c.failed_count ≤ (runCalls c l).failed_count ∧
      (runCalls c l).failed_count ≤ c.failed_count + l.length := by
  induction l with
  | nil =>
    intro c
    simp [runCalls]
  | cons a t ih =>
    intro c
    have hstep := stepCalc_counts c a
    have ht := ih (stepCalc c a)
    have hrw : runCalls c (a :: t) = runCalls (stepCalc c a) t := rfl
    rw [hrw]
    obtain ⟨ht1, ht2, ht3⟩ := ht
    obtain ⟨hs1, hs2⟩ := hstep
    refine ⟨?_, ?_, ?_⟩
    · rw [ht1, hs1]
      simp [List.length_cons]
      omega
    · rcases hs2 with h | h <;> omega
    · rcases hs2 with h | h <;> simp [List.length_cons] <;> omega

/-- C3: every listed validation violation makes `calculate_iv` return the
failure signal `none`, increment the total counter by exactly one and the
failure counter by exactly one; the returned pair is the one produced by the
validation early-return, so neither the arbitrage check nor the root search
influences it. -/
theorem c3_validation_rejection (c : IVCalculator) (S K T r market_price q : ℝ)
    (ot : String)
    (h : S < IVCalculationConfig.MIN_SPOT_PRICE ∨
      K < IVCalculationConfig.MIN_STRIKE_PRICE ∨
      T < IVCalculationConfig.MIN_TIME_TO_EXPIRY ∨
      market_price < IVCalculationConfig.MIN_MARKET_PRICE ∨
      r < ModelConfig.MIN_RISK_FREE_RATE ∨ ModelConfig.MAX_RISK_FREE_RATE < r ∨
      q < ModelConfig.MIN_DIVIDEND_YIELD ∨ ModelConfig.MAX_DIVIDEND_YIELD < q ∨
      (strLower ot ≠ "call" ∧ strLower ot ≠ "put")) :
    calculate_iv c S K T r market_price q ot =
      (⟨c.calculation_count + 1, c.failed_count + 1⟩, none) := by
  apply calculate_iv_of_validation_failure
  intro hnone
  rw [validate_inputs_eq_none_iff] at hnone
  tauto

/-- Witness for C3: the call with `S = 0` is rejected with both counters
incremented once from a fresh calculator. -/
theorem c3_witness :
    calculate_iv IVCalculator.new 0 100 1 0.05 5 0 "call" = (⟨1, 1⟩, none) :=
  c3_validation_rejection IVCalculator.new 0 100 1 0.05 5 0 "call"
    (Or.inl (by norm_num [IVCalculationConfig.MIN_SPOT_PRICE]))

/-- C4: when validation passes but the market price is strictly below
0.99 times the intrinsic value, `calculate_iv` returns the failure signal with
the failure counter incremented by exactly one; the returned pair is produced
by the arbitrage early-return, so the root search never influences it. -/
theorem c4_arbitrage_rejection (c : IVCalculator) (S K T r market_price q : ℝ)
    (ot : String)
    (hval : validate_inputs S K T r market_price q ot = none)
    (harb : market_price < intrinsic_value S K (strLower ot) *
        IVCalculationConfig.INTRINSIC_VALUE_TOLERANCE) :
    calculate_iv c S K T r market_price q ot =
      (⟨c.calculation_count + 1, c.failed_count + 1⟩, none) :=
  calculate_iv_of_arbitrage c hval harb

/-- Witness for C4: the spec's concrete scenario `S=100, K=90, T=1, r=0.05,
market_price=5` for a call is rejected, not solved. -/
theorem c4_witness :
    calculate_iv IVCalculator.new 100 90 1 0.05 5 0 "call" = (⟨1, 1⟩, none) := by
  have hval : validate_inputs 100 90 1 0.05 5 0 "call" = none := by
    rw [validate_inputs_eq_none_iff]
    refine ⟨by norm_num [IVCalculationConfig.MIN_SPOT_PRICE],
      by norm_num [IVCalculationConfig.MIN_STRIKE_PRICE],
      by norm_num [IVCalculationConfig.MIN_TIME_TO_EXPIRY],
      by norm_num [IVCalculationConfig.MIN_MARKET_PRICE],
      by norm_num [ModelConfig.MIN_RISK_FREE_RATE, ModelConfig.MAX_RISK_FREE_RATE],
      by norm_num [ModelConfig.MIN_DIVIDEND_YIELD, ModelConfig.MAX_DIVIDEND_YIELD],
      Or.inl (by decide)⟩
  have harb : (5 : ℝ) < intrinsic_value 100 90 (strLower "call") *
        IVCalculationConfig.INTRINSIC_VALUE_TOLERANCE := by
    rw [show strLower "call" = "call" from by decide]
    unfold intrinsic_value
    rw [if_pos rfl, show max ((100 : ℝ) - 90) 0 = 10 by norm_num]
    norm_num [IVCalculationConfig.INTRINSIC_VALUE_TOLERANCE]
  exact c4_arbitrage_rejection IVCalculator.new 100 90 1 0.05 5 0 "call" hval harb

/-- C5: when a call reaches the root search, every root-search exception
(both `ValueError` and `RuntimeError`, the exceptions `brentq` raises) is
caught and converted to the failure signal `none` with the failure counter
incremented by exactly one; `calculate_iv_with` is total, so no exception
propagates to the caller. `calculate_iv` is `calculate_iv_with` applied to
the actual `brentq` outcome. -/
theorem c5_exception_containment (c : IVCalculator) (S K T r market_price q : ℝ)
    (ot : String) (e : BrentqError)
    (hval : validate_inputs S K T r market_price q ot = none)
    (harb : ¬(market_price < intrinsic_value S K (strLower ot) *
        IVCalculationConfig.INTRINSIC_VALUE_TOLERANCE)) :
    calculate_iv_with c S K T r market_price q ot (Except.error e) =
      (⟨c.calculation_count + 1, c.failed_count + 1⟩, none) := by
  unfold calculate_iv_with
  rw [hval]
  simp only [Option.isSome_none, Bool.false_eq_true, if_false]
  rw [if_neg harb]

/-- Witness for C5: a convergence failure (`RuntimeError`) during the root
search is converted to the failure signal. -/
theorem c5_witness :
    calculate_iv_with IVCalculator.new 100 90 1 0.05 11 0 "call"
      (Except.error BrentqError.runtimeError) = (⟨1, 1⟩, none) := by
  have hval : validate_inputs 100 90 1 0.05 11 0 "call" = none := by
    rw [validate_inputs_eq_none_iff]
    refine ⟨by norm_num [IVCalculationConfig.MIN_SPOT_PRICE],
      by norm_num [IVCalculationConfig.MIN_STRIKE_PRICE],
      by norm_num [IVCalculationConfig.MIN_TIME_TO_EXPIRY],
      by norm_num [IVCalculationConfig.MIN_MARKET_PRICE],
      by norm_num [ModelConfig.MIN_RISK_FREE_RATE, ModelConfig.MAX_RISK_FREE_RATE],
      by norm_num [ModelConfig.MIN_DIVIDEND_YIELD, ModelConfig.MAX_DIVIDEND_YIELD],
      Or.inl (by decide)⟩
  have harb : ¬((11 : ℝ) < intrinsic_value 100 90 (strLower "call") *
        IVCalculationConfig.INTRINSIC_VALUE_TOLERANCE) := by
    rw [show strLower "call" = "call" from by decide]
    unfold intrinsic_value
    rw [if_pos rfl, show max ((100 : ℝ) - 90) 0 = 10 by norm_num]
    norm_num [IVCalculationConfig.INTRINSIC_VALUE_TOLERANCE]
  exact c5_exception_containment IVCalculator.new 100 90 1 0.05 11 0 "call"
    BrentqError.runtimeError hval harb

/-- C2: the solver-level pricing functions return exactly the intrinsic value
for `T <= 0`, for both option kinds (the `T <= 0` early return in
`bs_call_price` and `bs_put_price`). `BlackScholes.price` has no such branch
and always evaluates the formula, dividing by `sigma * sqrt T = 0` at `T = 0`. -/
theorem c2_solver_price_at_expiry (S K T r sigma q : ℝ) (hT : T ≤ 0) :
    bs_call_price S K T r sigma q = max (S - K) 0 ∧
      bs_put_price S K T r sigma q = max (K - S) 0 := by
  unfold bs_call_price bs_put_price
  rw [if_pos hT, if_pos hT]
  exact ⟨rfl, rfl⟩

/-- Witness for C2: the repository's own test values at expiry. -/
theorem c2_witness :
    bs_call_price 110 100 0 0.05 0.2 0 = max (110 - 100) 0 ∧
      bs_put_price 110 100 0 0.05 0.2 0 = max (100 - 110) 0 :=
  c2_solver_price_at_expiry 110 100 0 0.05 0.2 0 le_rfl

/-- C8: from a fresh calculator (equals the state immediately after
`reset_statistics`), any sequence of `N` calls leaves the total counter at `N`
and the failure counter between 0 and `N`; each individual call adds exactly
one to the total counter and zero or one to the failure counter (so both are
non-decreasing outside reset), and `reset_statistics` zeroes both counters. -/
theorem c8_statistics_invariant :
    (∀ l : List CallArgs,
      (runCalls IVCalculator.new l).calculation_count = l.length ∧
        (runCalls IVCalculator.new l).failed_count ≤ l.length) ∧
    (∀ (c : IVCalculator) (a : CallArgs),
      (stepCalc c a).calculation_count = c.calculation_count + 1 ∧
        ((stepCalc c a).failed_count = c.failed_count ∨
          (stepCalc c a).failed_count = c.failed_count + 1)) ∧
    (∀ c : IVCalculator, reset_statistics c = IVCalculator.new ∧
      (reset_statistics c).calculation_count = 0 ∧
      (reset_statistics c).failed_count = 0) := by
  refine ⟨?_, stepCalc_counts, fun c => ⟨rfl, rfl, rfl⟩⟩
  intro l
  have h := runCalls_counts l IVCalculator.new
  simp only [IVCalculator.new] at h ⊢
  omega

/-- C9: the statistics snapshot reports the total counter, the failure
counter, their (integer) difference as the success count, and the success
rate `(total - failed)/total * 100`, defined as 0 when the total counter is
zero; `get_statistics` is a pure function of the state, so it mutates nothing
and repeated calls return equal snapshots. -/
theorem c9_statistics_accessor (c : IVCalculator) :
    (get_statistics c).total = c.calculation_count ∧
    (get_statistics c).failed = c.failed_count ∧
    (get_statistics c).successful = (c.calculation_count : ℤ) - (c.failed_count : ℤ) ∧
    (get_statistics c).success_rate =
      (if 0 < c.calculation_count then
        ((c.calculation_count : ℝ) - (c.failed_count : ℝ)) / (c.calculation_count : ℝ) * 100
      else 0) ∧
    get_statistics c = get_statistics c :=
  ⟨rfl, rfl, rfl, rfl, rfl⟩

/-- C10: `gamma` and `vega` ignore the option kind entirely; `delta` and
`theta` return the put-branch value for every kind other than exactly
`"call"` (including `"CALL"` and invalid strings); and `price` is the only
operation that can fail, doing so exactly when the kind is neither `"call"`
nor `"put"`. -/
theorem c10_greeks_ignore_kind (S K T r sigma q : ℝ) (ot ot2 : String) :
    BlackScholes.gamma ⟨S, K, T, r, sigma, q, ot⟩ =
      BlackScholes.gamma ⟨S, K, T, r, sigma, q, ot2⟩ ∧
    BlackScholes.vega ⟨S, K, T, r, sigma, q, ot⟩ =
      BlackScholes.vega ⟨S, K, T, r, sigma, q, ot2⟩ ∧
    (ot ≠ "call" →
      BlackScholes.delta ⟨S, K, T, r, sigma, q, ot⟩ =
        BlackScholes.delta ⟨S, K, T, r, sigma, q, "put"⟩ ∧
      BlackScholes.theta ⟨S, K, T, r, sigma, q, ot⟩ =
        BlackScholes.theta ⟨S, K, T, r, sigma, q, "put"⟩) ∧
    ((∃ msg, BlackScholes.price ⟨S, K, T, r, sigma, q, ot⟩ = Except.error msg) ↔
      (ot ≠ "call" ∧ ot ≠ "put")) := by
  refine ⟨rfl, rfl, ?_, ?_⟩
  · intro h
    constructor
    · simp [BlackScholes.delta, h]
    · simp [BlackScholes.theta, h]
  · unfold BlackScholes.price
    split_ifs with h1 h2 <;> simp_all

/-- Witness for C10: the case variant `"CALL"` is routed to the put branch of
`delta`, `gamma` ignores the kind, and `price` rejects `"CALL"`. -/
theorem c10_witness :
    BlackScholes.delta ⟨100, 100, 1, 0.05, 0.2, 0, "CALL"⟩ =
      BlackScholes.delta ⟨100, 100, 1, 0.05, 0.2, 0, "put"⟩ ∧
    BlackScholes.gamma ⟨100, 100, 1, 0.05, 0.2, 0, "CALL"⟩ =
      BlackScholes.gamma ⟨100, 100, 1, 0.05, 0.2, 0, "xyz"⟩ ∧
    (∃ msg, BlackScholes.price ⟨100, 100, 1, 0.05, 0.2, 0, "CALL"⟩ = Except.error msg) :=
  ⟨((c10_greeks_ignore_kind 100 100 1 0.05 0.2 0 "CALL" "xyz").2.2.1 (by decide)).1,
    (c10_greeks_ignore_kind 100 100 1 0.05 0.2 0 "CALL" "xyz").1,
    ((c10_greeks_ignore_kind 100 100 1 0.05 0.2 0 "CALL" "xyz").2.2.2).mpr
      ⟨by decide, by decide⟩⟩

/-- C6: put-call parity — for positive parameters, the call price minus the
put price returned by `BlackScholes.price` equals `S e^(-qT) - K e^(-rT)`,
within (indeed, exactly within) the specified `1e-6` absolute tolerance. -/
theorem c6_put_call_parity (S K T r q sigma : ℝ)
    (hS : 0 < S) (hK : 0 < K) (hT : 0 < T) (hs : 0 < sigma) :
    ∃ cp pp : ℝ,
      BlackScholes.price ⟨S, K, T, r, sigma, q, "call"⟩ = Except.ok cp ∧
      BlackScholes.price ⟨S, K, T, r, sigma, q, "put"⟩ = Except.ok pp ∧
      |cp - pp - (S * Real.exp (-q * T) - K * Real.exp (-r * T))| ≤ 1e-6 := by
  refine ⟨BlackScholes.callFormula S K T r sigma q,
    BlackScholes.putFormula S K T r sigma q, ?_, ?_, ?_⟩
  · unfold BlackScholes.price
    dsimp only
    rw [if_pos rfl]
  · unfold BlackScholes.price
    dsimp only
    rw [if_neg (by decide : ¬("put" : String) = "call"), if_pos rfl]
  · rw [show BlackScholes.callFormula S K T r sigma q -
        BlackScholes.putFormula S K T r sigma q -
        (S * Real.exp (-q * T) - K * Real.exp (-r * T)) = 0 from by
      rw [putFormula_eq_callFormula]
      ring]
    norm_num

/-- Witness for C6 at `S=100, K=90, T=1, r=0.05, q=0.01, sigma=0.2`. -/
theorem c6_witness :
    ∃ cp pp : ℝ,
      BlackScholes.price ⟨100, 90, 1, 0.05, 0.2, 0.01, "call"⟩ = Except.ok cp ∧
      BlackScholes.price ⟨100, 90, 1, 0.05, 0.2, 0.01, "put"⟩ = Except.ok pp ∧
      |cp - pp - (100 * Real.exp (-0.01 * 1) - 90 * Real.exp (-0.05 * 1))| ≤ 1e-6 :=
  c6_put_call_parity 100 90 1 0.05 0.01 0.2 (by norm_num) (by norm_num) (by norm_num)
    (by norm_num)

/-- C7: holding all other parameters fixed, the price returned by
`BlackScholes.price` is strictly increasing in sigma on `sigma > 0` for both
kinds, and `BlackScholes.vega` is strictly positive on the valid domain
(whatever the `option_type` string, which `vega` ignores). -/
theorem c7_price_strict_mono_vega_pos (S K T r q sigma1 sigma2 : ℝ) (ot : String)
    (hS : 0 < S) (hK : 0 < K) (hT : 0 < T) (hs1 : 0 < sigma1) (h12 : sigma1 < sigma2) :
    BlackScholes.price ⟨S, K, T, r, sigma1, q, "call"⟩ =
      Except.ok (BlackScholes.callFormula S K T r sigma1 q) ∧
    BlackScholes.price ⟨S, K, T, r, sigma1, q, "put"⟩ =
      Except.ok (BlackScholes.putFormula S K T r sigma1 q) ∧
    BlackScholes.callFormula S K T r sigma1 q < BlackScholes.callFormula S K T r sigma2 q ∧
    BlackScholes.putFormula S K T r sigma1 q < BlackScholes.putFormula S K T r sigma2 q ∧
    0 < BlackScholes.vega ⟨S, K, T, r, sigma1, q, ot⟩ := by
  have hs2 : 0 < sigma2 := lt_trans hs1 h12
  refine ⟨?_, ?_, ?_, ?_, ?_⟩
  · unfold BlackScholes.price
    dsimp only
    rw [if_pos rfl]
  · unfold BlackScholes.price
    dsimp only
    rw [if_neg (by decide : ¬("put" : String) = "call"), if_pos rfl]
  · exact callFormula_strictMonoOn S K T r q hS hK hT (mem_Ioi.mpr hs1)
      (mem_Ioi.mpr hs2) h12
  · exact putFormula_strictMonoOn S K T r q hS hK hT (mem_Ioi.mpr hs1)
      (mem_Ioi.mpr hs2) h12
  · unfold BlackScholes.vega
    dsimp only
    exact mul_pos (mul_pos (mul_pos hS (Real.exp_pos _)) (normPdf_pos _))
      (Real.sqrt_pos.mpr hT)

/-- Witness for C7 at `S=100, K=90, T=1, r=0.05, q=0.01, 0.1 < 0.3`. -/
theorem c7_witness :
    BlackScholes.callFormula 100 90 1 0.05 0.1 0.01 <
      BlackScholes.callFormula 100 90 1 0.05 0.3 0.01 ∧
    BlackScholes.putFormula 100 90 1 0.05 0.1 0.01 <
      BlackScholes.putFormula 100 90 1 0.05 0.3 0.01 ∧
    0 < BlackScholes.vega ⟨100, 90, 1, 0.05, 0.1, 0.01, "call"⟩ := by
  have h := c7_price_strict_mono_vega_pos 100 90 1 0.05 0.01 0.1 0.3 "call"
    (by norm_num) (by norm_num) (by norm_num) (by norm_num) (by norm_num)
  exact ⟨h.2.2.1, h.2.2.2.1, h.2.2.2.2⟩

theorem exp_half_lt : Real.exp (1/2 : ℝ) < 5/3 := by
  have h1 : Real.exp (1/2 : ℝ) ^ 2 = Real.exp 1 := by
    rw [← Real.exp_nat_mul]
    norm_num
  have h2 : Real.exp 1 < 2.7182818286 := Real.exp_one_lt_d9
  nlinarith [Real.exp_pos (1/2 : ℝ)]

theorem exp_half_gt : (3/2 : ℝ) < Real.exp (1/2 : ℝ) := by
  have h := Real.add_one_lt_exp (by norm_num : (1/2 : ℝ) ≠ 0)
  linarith

theorem exp_neg_half_lt : Real.exp (-(1/2) : ℝ) < 2/3 := by
  rw [Real.exp_neg]
  calc (Real.exp (1/2 : ℝ))⁻¹ < (3/2 : ℝ)⁻¹ := inv_lt_inv_of_lt (by norm_num) exp_half_gt
    _ = 2/3 := by norm_num

theorem exp_neg_half_gt : (3/5 : ℝ) < Real.exp (-(1/2) : ℝ) := by
  rw [Real.exp_neg]
  calc (3/5 : ℝ) = (5/3 : ℝ)⁻¹ := by norm_num
    _ < (Real.exp (1/2 : ℝ))⁻¹ := inv_lt_inv_of_lt (Real.exp_pos _) exp_half_lt

theorem log_hundred_gt : (4 : ℝ) < Real.log 100 := by
  rw [Real.lt_log_iff_exp_lt (by norm_num)]
  have h1 : Real.exp (4 : ℝ) = Real.exp 1 ^ 4 := by
    rw [← Real.exp_nat_mul]
    norm_num
  have h2 : Real.exp 1 < 2.7182818286 := Real.exp_one_lt_d9
  have h3 : Real.exp 1 ^ 4 < 2.7182818286 ^ 4 := by
    gcongr
  rw [h1]
  calc Real.exp 1 ^ 4 < 2.7182818286 ^ 4 := h3
    _ < 100 := by norm_num

theorem sqrt_two_pi_lt : Real.sqrt (2 * Real.pi) < 2.51 := by
  have h : (2 : ℝ) * Real.pi < 2.51 ^ 2 := by
    have := Real.pi_lt_d2
    nlinarith
  calc Real.sqrt (2 * Real.pi) < Real.sqrt (2.51 ^ 2) :=
        Real.sqrt_lt_sqrt (by positivity) h
    _ = 2.51 := Real.sqrt_sq (by norm_num)

theorem normPdf_one_gt : (0.23 : ℝ) < normPdf 1 := by
  unfold normPdf
  have h1p : (0:ℝ) < Real.sqrt (2 * Real.pi) := Real.sqrt_pos.mpr (by positivity)
  have h2 : (3/5 : ℝ) < Real.exp (-(1 ^ 2 : ℝ) / 2) := by
    rw [show (-(1 ^ 2 : ℝ) / 2) = (-(1/2) : ℝ) by norm_num]
    exact exp_neg_half_gt
  have h3 : (2.51 : ℝ)⁻¹ < (Real.sqrt (2 * Real.pi))⁻¹ :=
    inv_lt_inv_of_lt h1p sqrt_two_pi_lt
  calc (0.23 : ℝ) < (2.51 : ℝ)⁻¹ * (3/5) := by norm_num
    _ < (Real.sqrt (2 * Real.pi))⁻¹ * Real.exp (-(1 ^ 2 : ℝ) / 2) :=
        mul_lt_mul h3 h2.le (by norm_num) (by positivity)

theorem normCdf_one_gt : (0.73 : ℝ) < normCdf 1 := by
  have hmono : ∀ t ∈ Set.Icc (0:ℝ) 1, (fun _ : ℝ => normPdf 1) t ≤ normPdf t := by
    intro t ht
    unfold normPdf
    have hsq : t ^ 2 ≤ 1 ^ 2 := by nlinarith [ht.1, ht.2]
    have hexp : Real.exp (-(1 ^ 2 : ℝ)/2) ≤ Real.exp (-(t ^ 2)/2) := by
      apply Real.exp_le_exp.mpr
      linarith
    exact mul_le_mul_of_nonneg_left hexp (by positivity)
  have hle := intervalIntegral.integral_mono_on (by norm_num : (0:ℝ) ≤ 1)
    intervalIntegrable_const integrable_normPdf.intervalIntegrable hmono
  rw [intervalIntegral.integral_const] at hle
  simp only [sub_zero, one_smul] at hle
  have h1 := normPdf_one_gt
  have hrepr := normCdf_sub_normCdf 0 1
  have h0 := normCdf_zero
  linarith

/-- The call price never exceeds the dividend-discounted spot. -/
theorem callFormula_le_spot (S K T r sigma q : ℝ) (hS : 0 ≤ S) (hK : 0 ≤ K) :
    BlackScholes.callFormula S K T r sigma q ≤ S * Real.exp (-q * T) := by
  unfold BlackScholes.callFormula
  have h1 : normCdf (d1 S K T r sigma q) ≤ 1 := normCdf_le_one _
  have h1p : 0 ≤ normCdf (d1 S K T r sigma q) := normCdf_nonneg _
  have h2 : 0 ≤ normCdf (d2 S K T r sigma q) := normCdf_nonneg _
  have he1 : (0:ℝ) < Real.exp (-q * T) := Real.exp_pos _
  have he2 : (0:ℝ) < Real.exp (-r * T) := Real.exp_pos _
  have hA : S * Real.exp (-q * T) * normCdf (d1 S K T r sigma q) ≤
      S * Real.exp (-q * T) * 1 :=
    mul_le_mul_of_nonneg_left h1 (by positivity)
  have hB : 0 ≤ K * Real.exp (-r * T) * normCdf (d2 S K T r sigma q) :=
    mul_nonneg (mul_nonneg hK he2.le) h2
  linarith

/-- Upper bound on the deep in-the-money high-dividend call price used in the
C1 counterexample: it falls strictly below 99% of the intrinsic value 99. -/
theorem c1_cex_upper : BlackScholes.callFormula 100 1 1 0 0.01 0.5 < 98.01 := by
  have h := callFormula_le_spot 100 1 1 0 0.01 0.5 (by norm_num) (by norm_num)
  have h2 : Real.exp (-(0.5 : ℝ) * 1) < 2/3 := by
    rw [show (-(0.5 : ℝ) * 1) = (-(1/2) : ℝ) by norm_num]
    exact exp_neg_half_lt
  nlinarith

/-- Lower bound on the same price: it passes the market-price floor. -/
theorem c1_cex_lower : (0.01 : ℝ) ≤ BlackScholes.callFormula 100 1 1 0 0.01 0.5 := by
  unfold BlackScholes.callFormula
  have hd1 : (0:ℝ) ≤ d1 100 1 1 0 0.01 0.5 := by
    unfold d1
    apply div_nonneg
    · rw [show (100:ℝ)/1 = 100 by norm_num]
      have := log_hundred_gt
      nlinarith
    · rw [Real.sqrt_one]
      norm_num
  have hF1 : (1/2 : ℝ) ≤ normCdf (d1 100 1 1 0 0.01 0.5) := by
    have h := normCdf_mono hd1
    rw [normCdf_zero] at h
    exact h
  have hF2 : normCdf (d2 100 1 1 0 0.01 0.5) ≤ 1 := normCdf_le_one _
  have he : (3/5 : ℝ) < Real.exp (-(0.5 : ℝ) * 1) := by
    rw [show (-(0.5 : ℝ) * 1) = (-(1/2) : ℝ) by norm_num]
    exact exp_neg_half_gt
  have he0 : Real.exp (-(0 : ℝ) * 1) = 1 := by
    rw [show (-(0 : ℝ) * 1) = 0 by norm_num, Real.exp_zero]
  rw [he0]
  have hprod : (3/5 : ℝ) * (1/2) ≤ Real.exp (-(0.5 : ℝ) * 1) *
      normCdf (d1 100 1 1 0 0.01 0.5) :=
    mul_le_mul he.le hF1 (by norm_num) (Real.exp_pos _).le
  nlinarith

theorem callFormula_injective_sigma {S K T r q : ℝ} (hS : 0 < S) (hK : 0 < K) (hT : 0 < T)
    {x y : ℝ} (hx : 0 < x) (hy : 0 < y)
    (hxy : BlackScholes.callFormula S K T r x q = BlackScholes.callFormula S K T r y q) :
    x = y :=
  (callFormula_strictMonoOn S K T r q hS hK hT).injOn (mem_Ioi.mpr hx) (mem_Ioi.mpr hy) hxy

theorem putFormula_injective_sigma {S K T r q : ℝ} (hS : 0 < S) (hK : 0 < K) (hT : 0 < T)
    {x y : ℝ} (hx : 0 < x) (hy : 0 < y)
    (hxy : BlackScholes.putFormula S K T r x q = BlackScholes.putFormula S K T r y q) :
    x = y :=
  (putFormula_strictMonoOn S K T r q hS hK hT).injOn (mem_Ioi.mpr hx) (mem_Ioi.mpr hy) hxy

/-- The at-the-money call with `S=K=1, T=1, r=q=0, sigma=2` prices to
`2 Phi(1) - 1`. -/
theorem callFormula_atm_eq : BlackScholes.callFormula 1 1 1 0 2 0 = 2 * normCdf 1 - 1 := by
  have hd1 : d1 1 1 1 0 2 0 = 1 := by
    unfold d1
    rw [show (1:ℝ)/1 = 1 by norm_num, Real.log_one, Real.sqrt_one]
    norm_num
  have hd2 : d2 1 1 1 0 2 0 = -1 := by
    unfold d2
    rw [hd1, Real.sqrt_one]
    norm_num
  unfold BlackScholes.callFormula
  rw [hd1, hd2, show (-(0:ℝ) * 1) = 0 by norm_num, Real.exp_zero, normCdf_neg]
  ring

/-- C1 counterexample: the round-trip claim fails as stated. With
`S=100, K=1, T=1, r=0, q=0.5, sigma=0.01, kind=call` — all strictly positive
with sigma inside `(1e-6, 5)` — the price computed by `BlackScholes.price`
falls below 99% of the intrinsic value `max(S-K,0) = 99` (the call is deep in
the money and the dividend yield discounts the forward), so feeding it back
into `calculate_iv` hits the arbitrage rejection and returns the failure
signal `none` with `failed_count` incremented, not a volatility near 0.01. -/
theorem c1_roundtrip_counterexample :
    BlackScholes.price ⟨100, 1, 1, 0, 0.01, 0.5, "call"⟩ =
      Except.ok (BlackScholes.callFormula 100 1 1 0 0.01 0.5) ∧
    calculate_iv IVCalculator.new 100 1 1 0
      (BlackScholes.callFormula 100 1 1 0 0.01 0.5) 0.5 "call" =
      (⟨1, 1⟩, none) := by
  constructor
  · unfold BlackScholes.price
    dsimp only
    rw [if_pos rfl]
  · have hval : validate_inputs 100 1 1 0
        (BlackScholes.callFormula 100 1 1 0 0.01 0.5) 0.5 "call" = none := by
      rw [validate_inputs_eq_none_iff]
      refine ⟨by norm_num [IVCalculationConfig.MIN_SPOT_PRICE],
        by norm_num [IVCalculationConfig.MIN_STRIKE_PRICE],
        by norm_num [IVCalculationConfig.MIN_TIME_TO_EXPIRY],
        ?_,
        by norm_num [ModelConfig.MIN_RISK_FREE_RATE, ModelConfig.MAX_RISK_FREE_RATE],
        by norm_num [ModelConfig.MIN_DIVIDEND_YIELD, ModelConfig.MAX_DIVIDEND_YIELD],
        Or.inl (by decide)⟩
      simp only [IVCalculationConfig.MIN_MARKET_PRICE]
      exact not_lt.mpr c1_cex_lower
    have harb : BlackScholes.callFormula 100 1 1 0 0.01 0.5 <
        intrinsic_value 100 1 (strLower "call") *
          IVCalculationConfig.INTRINSIC_VALUE_TOLERANCE := by
      rw [show strLower "call" = "call" from by decide]
      unfold intrinsic_value
      rw [if_pos rfl, show max ((100:ℝ) - 1) 0 = 99 by norm_num]
      have h := c1_cex_upper
      simp only [IVCalculationConfig.INTRINSIC_VALUE_TOLERANCE]
      linarith
    exact calculate_iv_of_arbitrage IVCalculator.new hval harb

/-- C1 (amended): the round trip holds once the parameters are required to
pass the solver's own gates — the validation thresholds on `S, K, T, r, q` and
on the computed price, and the arbitrage bound
`price >= 0.99 * intrinsic value`. Then `calculate_iv` on the price computed
by `BlackScholes.price` succeeds and returns the original sigma within the
`1e-4` tolerance (exactly, in the idealised root-finder model). -/
theorem c1_roundtrip_amended (c : IVCalculator) (od : OptionData) (p : ℝ)
    (hok : BlackScholes.price od = Except.ok p)
    (hS : IVCalculationConfig.MIN_SPOT_PRICE ≤ od.S)
    (hK : IVCalculationConfig.MIN_STRIKE_PRICE ≤ od.K)
    (hT : IVCalculationConfig.MIN_TIME_TO_EXPIRY ≤ od.T)
    (hr1 : ModelConfig.MIN_RISK_FREE_RATE ≤ od.r)
    (hr2 : od.r ≤ ModelConfig.MAX_RISK_FREE_RATE)
    (hq1 : ModelConfig.MIN_DIVIDEND_YIELD ≤ od.q)
    (hq2 : od.q ≤ ModelConfig.MAX_DIVIDEND_YIELD)
    (hs1 : IVCalculationConfig.IV_MIN_BOUND < od.sigma)
    (hs2 : od.sigma < IVCalculationConfig.IV_MAX_BOUND)
    (hp : IVCalculationConfig.MIN_MARKET_PRICE ≤ p)
    (harb : intrinsic_value od.S od.K (strLower od.option_type) *
      IVCalculationConfig.INTRINSIC_VALUE_TOLERANCE ≤ p) :
    ∃ iv : ℝ,
      calculate_iv c od.S od.K od.T od.r p od.q od.option_type =
        (⟨c.calculation_count + 1, c.failed_count⟩, some iv) ∧
      |iv - od.sigma| ≤ IVCalculationConfig.IV_CONVERGENCE_TOLERANCE := by
  obtain ⟨S, K, T, r, sigma, q, ot⟩ := od
  dsimp only at hok hS hK hT hr1 hr2 hq1 hq2 hs1 hs2 harb ⊢
  have hT0 : 0 < T :=
    lt_of_lt_of_le (by norm_num [IVCalculationConfig.MIN_TIME_TO_EXPIRY]) hT
  have hS0 : 0 < S :=
    lt_of_lt_of_le (by norm_num [IVCalculationConfig.MIN_SPOT_PRICE]) hS
  have hK0 : 0 < K :=
    lt_of_lt_of_le (by norm_num [IVCalculationConfig.MIN_STRIKE_PRICE]) hK
  have hsig0 : 0 < sigma :=
    lt_trans (by norm_num [IVCalculationConfig.IV_MIN_BOUND]) hs1
  unfold BlackScholes.price at hok
  dsimp only at hok
  have harb2 : ¬(p < intrinsic_value S K (strLower ot) *
      IVCalculationConfig.INTRINSIC_VALUE_TOLERANCE) := not_lt.mpr harb
  by_cases hcall : ot = "call"
  · rw [if_pos hcall] at hok
    have hpeq : BlackScholes.callFormula S K T r sigma q = p := Except.ok.inj hok
    have hlow : strLower ot = "call" := by
      rw [hcall]
      decide
    have hval : validate_inputs S K T r p q ot = none := by
      rw [validate_inputs_eq_none_iff]
      exact ⟨not_lt.mpr hS, not_lt.mpr hK, not_lt.mpr hT, not_lt.mpr hp,
        not_or.mpr ⟨not_lt.mpr hr1, not_lt.mpr hr2⟩,
        not_or.mpr ⟨not_lt.mpr hq1, not_lt.mpr hq2⟩, Or.inl hlow⟩
    have hobj : objective_function S K T r p q (strLower ot) sigma = 0 := by
      rw [hlow]
      unfold objective_function
      rw [if_pos rfl, bs_call_price_of_pos hT0, hpeq, sub_self]
    obtain ⟨iv, hiv, hmem, hroot2⟩ := calculate_iv_of_root c hval harb2
      ⟨sigma, ⟨le_of_lt hs1, le_of_lt hs2⟩, hobj⟩
    refine ⟨iv, hiv, ?_⟩
    have hivpos : 0 < iv :=
      lt_of_lt_of_le (by norm_num [IVCalculationConfig.IV_MIN_BOUND]) hmem.1
    have heq : BlackScholes.callFormula S K T r iv q =
        BlackScholes.callFormula S K T r sigma q := by
      rw [hlow] at hroot2
      unfold objective_function at hroot2
      rw [if_pos rfl, bs_call_price_of_pos hT0] at hroot2
      rw [hpeq]
      linarith
    rw [callFormula_injective_sigma hS0 hK0 hT0 hivpos hsig0 heq]
    simp [IVCalculationConfig.IV_CONVERGENCE_TOLERANCE]
    norm_num
  · rw [if_neg hcall] at hok
    by_cases hput : ot = "put"
    · rw [if_pos hput] at hok
      have hpeq : BlackScholes.putFormula S K T r sigma q = p := Except.ok.inj hok
      have hlow : strLower ot = "put" := by
        rw [hput]
        decide
      have hnc : ¬(strLower ot = "call") := by
        rw [hlow]
        decide
      have hval : validate_inputs S K T r p q ot = none := by
        rw [validate_inputs_eq_none_iff]
        exact ⟨not_lt.mpr hS, not_lt.mpr hK, not_lt.mpr hT, not_lt.mpr hp,
          not_or.mpr ⟨not_lt.mpr hr1, not_lt.mpr hr2⟩,
          not_or.mpr ⟨not_lt.mpr hq1, not_lt.mpr hq2⟩, Or.inr hlow⟩
      have hobj : objective_function S K T r p q (strLower ot) sigma = 0 := by
        unfold objective_function
        rw [if_neg hnc, bs_put_price_of_pos hT0, hpeq, sub_self]
      obtain ⟨iv, hiv, hmem, hroot2⟩ := calculate_iv_of_root c hval harb2
        ⟨sigma, ⟨le_of_lt hs1, le_of_lt hs2⟩, hobj⟩
      refine ⟨iv, hiv, ?_⟩
      have hivpos : 0 < iv :=
        lt_of_lt_of_le (by norm_num [IVCalculationConfig.IV_MIN_BOUND]) hmem.1
      have heq : BlackScholes.putFormula S K T r iv q =
          BlackScholes.putFormula S K T r sigma q := by
        unfold objective_function at hroot2
        rw [if_neg hnc, bs_put_price_of_pos hT0] at hroot2
        rw [hpeq]
        linarith
      rw [putFormula_injective_sigma hS0 hK0 hT0 hivpos hsig0 heq]
      simp [IVCalculationConfig.IV_CONVERGENCE_TOLERANCE]
      norm_num
    · rw [if_neg hput] at hok
      cases hok

/-- Witness for the amended C1 at `S=K=1, T=1, r=q=0, sigma=2`, where the
price is `2 Phi(1) - 1 > 0.46`, the intrinsic value is 0, and the round trip
recovers sigma exactly. -/
theorem c1_roundtrip_amended_witness :
    ∃ iv : ℝ,
      calculate_iv IVCalculator.new 1 1 1 0 (BlackScholes.callFormula 1 1 1 0 2 0) 0 "call" =
        (⟨1, 0⟩, some iv) ∧
      |iv - 2| ≤ IVCalculationConfig.IV_CONVERGENCE_TOLERANCE := by
  have hp : IVCalculationConfig.MIN_MARKET_PRICE ≤ BlackScholes.callFormula 1 1 1 0 2 0 := by
    rw [callFormula_atm_eq]
    have h := normCdf_one_gt
    simp only [IVCalculationConfig.MIN_MARKET_PRICE]
    linarith
  have harb : intrinsic_value 1 1 (strLower "call") *
      IVCalculationConfig.INTRINSIC_VALUE_TOLERANCE ≤
        BlackScholes.callFormula 1 1 1 0 2 0 := by
    rw [show strLower "call" = "call" from by decide]
    unfold intrinsic_value
    rw [if_pos rfl, show max ((1:ℝ) - 1) 0 = 0 by norm_num, zero_mul]
    have h := normCdf_one_gt
    rw [callFormula_atm_eq]
    linarith
  have h := c1_roundtrip_amended IVCalculator.new ⟨1, 1, 1, 0, 2, 0, "call"⟩
    (BlackScholes.callFormula 1 1 1 0 2 0)
    (by unfold BlackScholes.price; dsimp only; rw [if_pos rfl])
    (by norm_num [IVCalculationConfig.MIN_SPOT_PRICE])
    (by norm_num [IVCalculationConfig.MIN_STRIKE_PRICE])
    (by norm_num [IVCalculationConfig.MIN_TIME_TO_EXPIRY])
    (by norm_num [ModelConfig.MIN_RISK_FREE_RATE])
    (by norm_num [ModelConfig.MAX_RISK_FREE_RATE])
    (by norm_num [ModelConfig.MIN_DIVIDEND_YIELD])
    (by norm_num [ModelConfig.MAX_DIVIDEND_YIELD])
    (by norm_num [IVCalculationConfig.IV_MIN_BOUND])
    (by norm_num [IVCalculationConfig.IV_MAX_BOUND])
    hp harb
  simpa using h

end VolSurface
